import Mathlib

/-!
Shallow embedding of `src/regtest.py` (a regression-test harness).

Strings of the Python program are modelled as `List Char`.  File contents are
modelled as decoded text (`List Char`); a file that is present but whose bytes
are not valid UTF-8 is modelled as `Except.error ()` content, since the only
observable behaviour of such a file in this program is the `UnicodeDecodeError`
raised while iterating its lines.
-/

namespace Regtest

/-- Whitespace characters matched by the regex `\s` (ASCII portion), used by
`_RE_COMBINE_WHITESPACE = re.compile(r"\s+")` and by `str.strip()`. -/
def isWS (c : Char) : Bool :=
  c = ' ' || c = '\t' || c = '\n' || c = '\r' || c = '\x0b' || c = '\x0c'

/-- State machine for `re.sub(r"\s+", " ", line)`: every maximal run of
whitespace becomes a single space.  The flag records whether the previous
character was part of a whitespace run. -/
def collapseAux (pw : Bool) : List Char → List Char
  | [] => []
  | c :: cs =>
    if isWS c then
      if pw then collapseAux true cs else ' ' :: collapseAux true cs
    else c :: collapseAux false cs

/-- `re.sub(r"\s+", " ", line)` from `normalize_file_lines`. -/
def collapse (l : List Char) : List Char := collapseAux false l

/-- Left part of Python `str.strip()`. -/
def trimL (l : List Char) : List Char := l.dropWhile isWS

/-- Right part of Python `str.strip()`. -/
def trimR (l : List Char) : List Char := (l.reverse.dropWhile isWS).reverse

/-- Python `str.strip()` (whitespace on both ends). -/
def pyStrip (l : List Char) : List Char := trimR (trimL l)

/-- One line of `normalize_file_lines`: whitespace collapsed, stripped,
lower-cased (`line.lower()` on the kept lines). -/
def normalizeLine (l : List Char) : List Char :=
  (pyStrip (collapse l)).map Char.toLower

/-- Helper: prepend a character to the first block of a non-empty block list. -/
def consHd (c : Char) : List (List Char) → List (List Char)
  | [] => [[c]]
  | s :: ss => (c :: s) :: ss

/-- Split decoded file content into physical lines, following Python's
universal-newlines text mode (`\r\n`, lone `\r` and `\n` all end a line).
`normalize_file_lines` iterates these lines; the trailing newline kept by
Python on each yielded line is whitespace and is removed by the strip, so it
is dropped here directly. -/
def splitNL : List Char → List (List Char)
  | [] => [[]]
  | a :: b :: rest =>
    if a = '\r' && b = '\n' then [] :: splitNL rest
    else if a = '\r' || a = '\n' then [] :: splitNL (b :: rest)
    else consHd a (splitNL (b :: rest))
  | a :: as => if a = '\r' || a = '\n' then [] :: splitNL as else consHd a (splitNL as)

/-- `list(normalize_file_lines(path))` on decoded content: for each physical
line, normalize whitespace and case and drop the lines that become empty
(the `if line:` check happens before `line.lower()`, but lower-casing does not
change emptiness; the source order is kept by filtering before mapping). -/
def normalizeContent (content : List Char) : List (List Char) :=
  (splitNL content).filterMap (fun l =>
    let s := pyStrip (collapse l)
    if s = [] then none else some (s.map Char.toLower))

/-- The `ELLIPSIS_MARKER = "..."` of `ellipsis_match`. -/
def eLL : List Char := ['.', '.', '.']

/-- Python `ELLIPSIS_MARKER in want`. -/
def containsEllipsis : List Char → Bool
  | a :: b :: c :: rest =>
    (a = '.' && b = '.' && c = '.') || containsEllipsis (b :: c :: rest)
  | _ => false

/-- Python `want.split("...")`: split at each leftmost non-overlapping
occurrence of the marker. -/
def splitEllipsis : List Char → List (List Char)
  | [] => [[]]
  | a :: b :: c :: rest =>
    if a = '.' && b = '.' && c = '.' then [] :: splitEllipsis rest
    else consHd a (splitEllipsis (b :: c :: rest))
  | a :: as => consHd a (splitEllipsis as)

/-- Python `got.find(w, startpos, endpos)`: index of the leftmost occurrence
of `w` that lies wholly inside the window `[startpos, min endpos (length got))`,
or `none` (Python's `-1`). -/
def pyfind (got w : List Char) (startpos endpos : Nat) : Option Nat :=
  (List.range' startpos (min endpos got.length + 1 - startpos)).find?
    (fun i => decide (i + w.length ≤ min endpos got.length) && w.isPrefixOf (got.drop i))

/-- The final loop of `ellipsis_match`: find each remaining piece leftmost in
order, advancing the cursor past each found occurrence. -/
def findAll (got : List Char) : List (List Char) → Nat → Nat → Bool
  | [], _, _ => true
  | w :: ws, startpos, endpos =>
    match pyfind got w startpos endpos with
    | none => false
    | some i => findAll got ws (i + w.length) endpos

/-- The `if w: # starts with exact match` step of `ellipsis_match`: on success
returns the new `startpos` and the (possibly shortened) piece list; `none` is
Python's `return False`. -/
def afterStart (got : List Char) (ws : List (List Char)) :
    Option (Nat × List (List Char)) :=
  let w := ws.headD []
  if w.isEmpty then some (0, ws)
  else if w.isPrefixOf got then some (w.length, ws.tail)
  else none

/-- The `if w: # ends with exact match` step of `ellipsis_match` (run on the
list left over by `afterStart`, exactly as the source mutates `ws` in place). -/
def afterEnd (got : List Char) (endpos0 : Nat) (ws : List (List Char)) :
    Option (Nat × List (List Char)) :=
  let w := ws.getLastD []
  if w.isEmpty then some (endpos0, ws)
  else if w.isSuffixOf got then some (endpos0 - w.length, ws.dropLast)
  else none

/-- The marker-present path of `ellipsis_match`, applied to the split pieces
of `want`: anchored ends, window check, then the leftmost-in-order find loop. -/
def emRun (got : List Char) (ws : List (List Char)) : Bool :=
  match afterStart got ws with
  | none => false
  | some (startpos, ws1) =>
    match afterEnd got got.length ws1 with
    | none => false
    | some (endpos, ws2) =>
      if startpos > endpos then false
      else findAll got ws2 startpos endpos

/-- `ellipsis_match(want, got)` from `src/regtest.py` (adapted there from
CPython's doctest): exact equality when no marker occurs, otherwise the
anchored-ends / leftmost-in-order matching of the split pieces. -/
def ellipsis_match (want got : List Char) : Bool :=
  if !(containsEllipsis want) then want == got
  else emRun got (splitEllipsis want)

/-- Python `s.split(".test")`: split at each leftmost non-overlapping
occurrence of `".test"`; `s.replace(".test", new)` is `new.join` of this. -/
def splitDT : List Char → List (List Char)
  | [] => [[]]
  | a :: b :: c :: d :: e :: rest =>
    if a = '.' && b = 't' && c = 'e' && d = 's' && e = 't' then [] :: splitDT rest
    else consHd a (splitDT (b :: c :: d :: e :: rest))
  | a :: as => consHd a (splitDT as)

/-- The string `".test"`. -/
def dtL : List Char := ['.', 't', 'e', 's', 't']

/-- The string `".exp"`. -/
def expL : List Char := ['.', 'e', 'x', 'p']

/-- The string `".xz"`. -/
def xzL : List Char := ['.', 'x', 'z']

/-- `test.replace(".test", ".exp")` from `run_test` (line 156). -/
def expfileOf (test : List Char) : List Char := List.intercalate expL (splitDT test)

/-- `testbasename.replace(".test", "")` from `run_test` (line 170), the value
of the `TESTNAME` environment variable. -/
def testnameOf (basename : List Char) : List Char := List.intercalate [] (splitDT basename)

/-- A file system: maps a path to `none` (absent / unreadable), or to content
that is either undecodable bytes (`Except.error ()`) or decoded text. -/
def FileSys : Type := List Char → Option (Except Unit (List Char))

/-- `os.access(path, os.R_OK)`. -/
def readable (fs : FileSys) (p : List Char) : Bool := (fs p).isSome

/-- Write `content` at `outfile` (the effect of `runcmd` writing the captured
output). -/
def writeFS (fs : FileSys) (outfile : List Char) (content : Except Unit (List Char)) :
    FileSys :=
  fun p => if p = outfile then some content else fs p

/-- Errors that a test run can raise (Python exceptions). -/
inductive Err where
  | notFound
  | decodeError
  | execFailure
  deriving DecidableEq, Repr

/-- Opening and decoding a file, as done by `normalize_file_lines`:
a missing file raises `FileNotFoundError`, undecodable bytes raise
`UnicodeDecodeError` while the lines are consumed. -/
def readFS (fs : FileSys) (p : List Char) : Except Err (List Char) :=
  match fs p with
  | none => .error .notFound
  | some (.error _) => .error .decodeError
  | some (.ok t) => .ok t

/-- The tail of the `zip_longest` loop once `lines1` is exhausted: every
remaining line of `lines2` is paired with the empty-string fill value. -/
def zipPadNilWant : List (List Char) → Bool
  | [] => true
  | g :: gs => ellipsis_match [] g && zipPadNilWant gs

/-- The `zip_longest(lines1, lines2, fillvalue="")` loop of
`generate_unified_diff`: every positional pair must satisfy `ellipsis_match`
with the line of `lines1` as `want`; the shorter side is padded with the
empty string. -/
def zipPad : List (List Char) → List (List Char) → Bool
  | [], gs => zipPadNilWant gs
  | w :: ws, [] => ellipsis_match w [] && zipPad ws []
  | w :: ws, g :: gs => ellipsis_match w g && zipPad ws gs

/-- Modelled from the spec: `difflib.unified_diff` (standard library, not part
of `src/`), which the spec describes as producing "a full unified-diff of the
two complete normalized sequences, with filenames attached as context
headers".  Only its emptiness behaviour matters here: it yields no lines at
all for equal sequences, and context headers followed by hunk lines
otherwise; the hunk content is modelled as one whole-sequence replacement. -/
def unified_diff (lines1 lines2 : List (List Char)) (fromfile tofile : List Char) :
    List (List Char) :=
  if lines1 = lines2 then []
  else
    ('-' :: '-' :: '-' :: ' ' :: fromfile) :: ('+' :: '+' :: '+' :: ' ' :: tofile)
      :: (lines1.map (fun l => '-' :: l) ++ lines2.map (fun l => '+' :: l))

/-- `generate_unified_diff(file1, file2)`: materialize both normalized line
sequences (reading `file1` first, as the source does), short-circuit the
pairwise ellipsis scan, and return `""` on equality or the joined unified
diff otherwise.  Exceptions raised while reading/decoding propagate. -/
def generate_unified_diff_m (fs : FileSys) (file1 file2 : List Char) :
    Except Err (List Char) :=
  match readFS fs file1 with
  | .error e => .error e
  | .ok t1 =>
    match readFS fs file2 with
    | .error e => .error e
    | .ok t2 =>
      let lines1 := normalizeContent t1
      let lines2 := normalizeContent t2
      if zipPad lines1 lines2 then .ok []
      else .ok (List.intercalate ['\n'] (unified_diff lines1 lines2 file1 file2))

/-- An environment: maps a variable name to its value, or `none` if unset. -/
def Env : Type := String → Option String

/-- `full_env[k] = v` (one Python dict store). -/
def updateVar (e : Env) (k v : String) : Env :=
  fun q => if q = k then some v else e q

/-- `os.getenv(k, "")`, as used for the module-level `ASAN_OPTIONS` and
`UBSAN_OPTIONS` values. -/
def getenvD (parent : Env) (k : String) : String := (parent k).getD ""

/-- The environment built by `runcmd`: `os.environ.copy()`, then
`full_env.update(env)`, then the stores of `LC_ALL`, `ASAN_OPTIONS` and
`UBSAN_OPTIONS` in source order.  The module-level sanitizer values were read
from the same parent environment at import time. -/
def runcmdEnv (parent : Env) (env : List (String × String)) : Env :=
  let e1 := env.foldl (fun acc kv => updateVar acc kv.1 kv.2) parent
  let e2 := updateVar e1 "LC_ALL" "C"
  let e3 := updateVar e2 "ASAN_OPTIONS" (getenvD parent "ASAN_OPTIONS")
  updateVar e3 "UBSAN_OPTIONS" (getenvD parent "UBSAN_OPTIONS")

/-- The environment of the subprocess started for one test:
`runcmd(..., env=dict(PROGRAM=program, TESTNAME=testname), ...)`. -/
def runTestEnv (parent : Env) (program testname : String) : Env :=
  runcmdEnv parent [("PROGRAM", program), ("TESTNAME", testname)]

/-- Outcome of the subprocess launched by `runcmd` when no exception is
raised: its exit status, and the content of the output file it wrote. -/
structure ExecResult where
  rc : Int
  content : Except Unit (List Char)

/-- `expfile` as selected by `run_test` (lines 156-159): replace `".test"`
with `".exp"`, and fall back to the `.xz` sibling when the plain file is not
readable but the compressed one is. -/
def selectExp (fs : FileSys) (test : List Char) : List Char :=
  let e0 := expfileOf test
  if !(readable fs e0) && readable fs (e0 ++ xzL) then e0 ++ xzL else e0

/-- `run_test(test, program)` (lines 150-187), with the subprocess modelled by
`exec`: `Except.error` is an `OSError` while launching the interpreter or
writing the output file (it propagates), `Except.ok r` gives the exit status
`r.rc` — which the source never reads — and the written output content.  The
verdict is `len(diff_output) == 0`; decode errors raised inside
`generate_unified_diff` propagate. -/
def run_test_m (fs : FileSys) (test outfile : List Char)
    (exec : Except Unit ExecResult) : Except Err Bool :=
  let expfile := selectExp fs test
  match exec with
  | .error _ => .error .execFailure
  | .ok r =>
    let fs2 := writeFS fs outfile r.content
    match generate_unified_diff_m fs2 expfile outfile with
    | .error e => .error e
    | .ok d => .ok (decide (d = []))

/-- The summary printed by `main` (lines 214-226): `ntotal = len(tests)`,
`npassed = sum(ok)`, `nfailed = ntotal - npassed`. -/
def summarize (ok : List Bool) : Nat × Nat × Nat :=
  (ok.length, ok.count true, ok.length - ok.count true)

/-- `exitcode = 1 if nfailed > 0 else 0` (line 227). -/
def exitcodeOf (nfailed : Nat) : Nat := if nfailed > 0 then 1 else 0

/-- `main`'s run phase: run every test (joblib's `Parallel` returns one result
per submitted test, in submission order), then summarize.  An exception
raised by any `run_test` call is re-raised by `Parallel` and aborts the run
before any summary is produced, which the `Except` monad's `mapM` models. -/
def main_m (tests : List (List Char)) (runOne : List Char → Except Err Bool) :
    Except Err ((Nat × Nat × Nat) × Nat) := do
  let ok ← tests.mapM runOne
  pure (summarize ok, exitcodeOf (ok.length - ok.count true))

/-- Modelled from the claim's words (C5), for refinement comparison with
`runTestEnv`: the parent environment with exactly `PROGRAM` and `TESTNAME`
added and the locale collation variable forced; everything else — including
the sanitizer variables, whether present or not — passes through unchanged
and nothing else is introduced. -/
def specTestEnv (parent : Env) (program testname : String) : Env := fun k =>
  if k = "PROGRAM" then some program
  else if k = "TESTNAME" then some testname
  else if k = "LC_ALL" then some "C"
  else parent k

/-- A parent environment with no variables set. -/
def emptyParent : Env := fun _ => none

/-- Concrete file system for the C2 demonstrations: `t.exp` holds bytes that
do not decode, `g.exp` holds the text `x`. -/
def fsC2 : FileSys := fun p =>
  if p = "t.exp".toList then some (Except.error ())
  else if p = "g.exp".toList then some (Except.ok "x".toList)
  else none

/-- Running one test against `fsC2`, with a subprocess that exits 0 and
writes the text `x` to `o.out`. -/
def runOneC2 (t : List Char) : Except Err Bool :=
  run_test_m fsC2 t ("o.out".toList) (Except.ok ⟨0, Except.ok "x".toList⟩)

/-- Concrete file system for the C3 demonstrations: one pair of files whose
raw bytes differ but normalize identically, and one pair where the actual
file has a trailing extra line. -/
def fsC3 : FileSys := fun p =>
  if p = "c3.exp".toList then some (Except.ok "A  B".toList)
  else if p = "c3.out".toList then some (Except.ok "a b".toList)
  else if p = "c3b.exp".toList then some (Except.ok "a".toList)
  else if p = "c3b.out".toList then some (Except.ok "a\nb".toList)
  else none

/-- Concrete file system for the C7 demonstration: `w.exp` holds `ok`. -/
def fsC7 : FileSys := fun p =>
  if p = "w.exp".toList then some (Except.ok "ok".toList) else none

/-- Concrete file system for the C10 demonstration: the expected file has two
trailing pure-wildcard lines beyond the actual file's single line. -/
def fsC10 : FileSys := fun p =>
  if p = "c10.exp".toList then some (Except.ok "x\n...\n...".toList)
  else if p = "c10.out".toList then some (Except.ok "x".toList)
  else none

/-- The pieces of `ws` occur in order, non-overlapping, inside `s`. -/
def InOrder : List (List Char) → List Char → Prop
  | [], _ => True
  | w :: ws, s => ∃ a b, s = a ++ w ++ b ∧ InOrder ws b

/-- A `want` line consisting solely of wildcard markers: `"..."` repeated
`k ≥ 1` times. -/
def pureEllipsisLine (w : List Char) : Prop :=
  ∃ k, 1 ≤ k ∧ w = (List.replicate k eLL).flatten

/-- Modelled from the spec: "collapse every maximal run of whitespace to a
single space, strip leading/trailing whitespace" — equivalently, the maximal
non-whitespace runs (words) of the line, joined by single spaces.  The
accumulator holds the reversed current word. -/
def wordsAux (acc : List Char) : List Char → List (List Char)
  | [] => if acc.isEmpty then [] else [acc.reverse]
  | c :: cs =>
    if isWS c then
      if acc.isEmpty then wordsAux [] cs else acc.reverse :: wordsAux [] cs
    else wordsAux (c :: acc) cs

/-- Modelled from the spec: the maximal non-whitespace runs of a line. -/
def wordsOf (l : List Char) : List (List Char) := wordsAux [] l

/-- Modelled from the spec: a normalized line is its words joined by single
spaces, lower-cased. -/
def specNormalizeLine (l : List Char) : List Char :=
  (List.intercalate [' '] (wordsOf l)).map Char.toLower

/-- Canonical scanning form shared by the implementation and the word model:
flag `false` skips leading whitespace, flag `true` is inside or after a word. -/
def canonF : Bool → List Char → List Char
  | _, [] => []
  | false, c :: cs => if isWS c then canonF false cs else c :: canonF true cs
  | true, c :: cs =>
    if isWS c then (if canonF false cs = [] then [] else ' ' :: canonF false cs)
    else c :: canonF true cs

/-! ### Split / join infrastructure -/

theorem intercalate_cons2 (sep a b : List Char) (t : List (List Char)) :
    List.intercalate sep (a :: b :: t) = a ++ sep ++ List.intercalate sep (b :: t) := by
  simp [List.intercalate, List.intersperse_cons_cons, List.append_assoc]

theorem intercalate_single (sep a : List Char) :
    List.intercalate sep [a] = a := by
  simp [List.intercalate]

theorem intercalate_nil2 (sep : List Char) : List.intercalate sep [] = [] := by
  simp [List.intercalate]

theorem intercalate_consHd (sep : List Char) (c : Char) (ws : List (List Char)) :
    List.intercalate sep (consHd c ws) = c :: List.intercalate sep ws := by
  match ws with
  | [] => simp [consHd, List.intercalate]
  | [s] => simp [consHd, List.intercalate]
  | s :: s2 :: ss => simp [consHd, intercalate_cons2]

theorem intercalate_append_single (sep x : List Char) (init : List (List Char))
    (h : init ≠ []) :
    List.intercalate sep (init ++ [x]) = List.intercalate sep init ++ sep ++ x := by
  induction init with
  | nil => exact absurd rfl h
  | cons a t ih =>
    match t with
    | [] => simp [intercalate_cons2, intercalate_single]
    | b :: t2 =>
      rw [List.cons_append, List.cons_append, intercalate_cons2, ← List.cons_append,
        ih (by simp), intercalate_cons2]
      simp [List.append_assoc]

theorem splitEllipsis_dots (rest : List Char) :
    splitEllipsis ('.' :: '.' :: '.' :: rest) = [] :: splitEllipsis rest := by
  rw [splitEllipsis]
  simp

theorem splitEllipsis_other (a b c : Char) (rest : List Char)
    (h : ¬(a = '.' ∧ b = '.' ∧ c = '.')) :
    splitEllipsis (a :: b :: c :: rest) = consHd a (splitEllipsis (b :: c :: rest)) := by
  rw [splitEllipsis]
  have : (decide (a = '.') && decide (b = '.') && decide (c = '.')) = false := by
    simp only [Bool.and_eq_false_iff, decide_eq_false_iff_not]
    by_cases ha : a = '.'
    · by_cases hb : b = '.'
      · exact Or.inr fun hc => h ⟨ha, hb, hc⟩
      · exact Or.inl (Or.inr hb)
    · exact Or.inl (Or.inl ha)
  rw [this]
  simp

theorem splitEllipsis_one (a : Char) : splitEllipsis [a] = [[a]] := rfl

theorem splitEllipsis_two (a b : Char) : splitEllipsis [a, b] = [[a, b]] := rfl

theorem splitEllipsis_ne_nil (l : List Char) : splitEllipsis l ≠ [] := by
  induction l using splitEllipsis.induct with
  | case1 => simp [splitEllipsis]
  | case2 a b c rest h ih =>
    obtain ⟨⟨ha, hb⟩, hc⟩ := by simpa using h
    subst ha; subst hb; subst hc
    rw [splitEllipsis_dots]
    simp
  | case3 a b c rest h ih =>
    have h' : ¬(a = '.' ∧ b = '.' ∧ c = '.') := by
      intro ⟨ha, hb, hc⟩
      exact h (by simp [ha, hb, hc])
    rw [splitEllipsis_other a b c rest h']
    cases hsp : splitEllipsis (b :: c :: rest) <;> simp [consHd]
  | case4 a as hshort ih =>
    cases as with
    | nil => simp [splitEllipsis, consHd]
    | cons b bs =>
      cases bs with
      | nil => simp [splitEllipsis_two]
      | cons c rest => exact (hshort b c rest rfl).elim

theorem splitEllipsis_join (l : List Char) :
    List.intercalate eLL (splitEllipsis l) = l := by
  induction l using splitEllipsis.induct with
  | case1 => simp [splitEllipsis, intercalate_single]
  | case2 a b c rest h ih =>
    obtain ⟨⟨ha, hb⟩, hc⟩ := by simpa using h
    subst ha; subst hb; subst hc
    rw [splitEllipsis_dots]
    cases hsp : splitEllipsis rest with
    | nil => exact absurd hsp (splitEllipsis_ne_nil rest)
    | cons s ss =>
      rw [hsp] at ih
      rw [intercalate_cons2, ih]
      simp [eLL]
  | case3 a b c rest h ih =>
    have h' : ¬(a = '.' ∧ b = '.' ∧ c = '.') := by
      intro ⟨ha, hb, hc⟩
      exact h (by simp [ha, hb, hc])
    rw [splitEllipsis_other a b c rest h', intercalate_consHd, ih]
  | case4 a as hshort ih =>
    cases as with
    | nil => simp [splitEllipsis, consHd, intercalate_single]
    | cons b bs =>
      cases bs with
      | nil => rw [splitEllipsis_two, intercalate_single]
      | cons c rest => exact (hshort b c rest rfl).elim

theorem consHd_length (c : Char) (ws : List (List Char)) (h : ws ≠ []) :
    (consHd c ws).length = ws.length := by
  cases ws with
  | nil => exact absurd rfl h
  | cons s ss => simp [consHd]

theorem splitEllipsis_length_ge_two (l : List Char) (h : containsEllipsis l = true) :
    2 ≤ (splitEllipsis l).length := by
  induction l using splitEllipsis.induct with
  | case1 => simp [containsEllipsis] at h
  | case2 a b c rest hcond ih =>
    obtain ⟨⟨ha, hb⟩, hc⟩ := by simpa using hcond
    subst ha; subst hb; subst hc
    rw [splitEllipsis_dots]
    have hne := splitEllipsis_ne_nil rest
    have : 1 ≤ (splitEllipsis rest).length := by
      cases hsp : splitEllipsis rest with
      | nil => exact absurd hsp hne
      | cons s ss => simp
    simp only [List.length_cons]
    omega
  | case3 a b c rest hcond ih =>
    have h' : ¬(a = '.' ∧ b = '.' ∧ c = '.') := by
      intro ⟨ha, hb, hc⟩
      exact hcond (by simp [ha, hb, hc])
    rw [splitEllipsis_other a b c rest h',
      consHd_length a _ (splitEllipsis_ne_nil _)]
    apply ih
    rw [containsEllipsis] at h
    simpa [hcond] using h
  | case4 a as hshort ih =>
    exfalso
    cases as with
    | nil => simp [containsEllipsis] at h
    | cons b bs =>
      cases bs with
      | nil => simp [containsEllipsis] at h
      | cons c rest => exact (hshort b c rest rfl).elim

/-! ### `pyfind` characterization -/

theorem range'_find?_eq_some {p : Nat → Bool} {s n i : Nat}
    (h : (List.range' s n).find? p = some i) :
    p i = true ∧ s ≤ i ∧ i < s + n ∧ ∀ j, s ≤ j → j < i → p j = false := by
  induction n generalizing s with
  | zero => simp [List.range'] at h
  | succ n ih =>
    rw [List.range'_succ] at h
    rw [List.find?_cons] at h
    cases hp : p s with
    | true =>
      rw [hp] at h
      simp only [Option.some.injEq] at h
      subst h
      exact ⟨hp, Nat.le_refl _, by omega, fun j h1 h2 => absurd (Nat.lt_of_le_of_lt h1 h2)
        (Nat.lt_irrefl _)⟩
    | false =>
      rw [hp] at h
      obtain ⟨h1, h2, h3, h4⟩ := ih h
      refine ⟨h1, by omega, by omega, fun j hj1 hj2 => ?_⟩
      rcases Nat.eq_or_lt_of_le hj1 with rfl | hlt
      · exact hp
      · exact h4 j hlt hj2

theorem range'_find?_isSome {p : Nat → Bool} {s n q : Nat}
    (h1 : s ≤ q) (h2 : q < s + n) (h3 : p q = true) :
    ∃ i, (List.range' s n).find? p = some i := by
  cases hf : (List.range' s n).find? p with
  | some i => exact ⟨i, rfl⟩
  | none =>
    rw [List.find?_eq_none] at hf
    exact absurd h3 (hf q (List.mem_range'_1.mpr ⟨h1, h2⟩))

theorem pyfind_some {got w : List Char} {s e i : Nat}
    (h : pyfind got w s e = some i) :
    s ≤ i ∧ i + w.length ≤ min e got.length ∧ w.isPrefixOf (got.drop i) = true ∧
      ∀ j, s ≤ j → j < i →
        ¬(j + w.length ≤ min e got.length ∧ w.isPrefixOf (got.drop j) = true) := by
  unfold pyfind at h
  obtain ⟨hp, hs, _, hmin⟩ := range'_find?_eq_some h
  simp only [Bool.and_eq_true, decide_eq_true_eq] at hp
  refine ⟨hs, hp.1, hp.2, fun j hj1 hj2 hcon => ?_⟩
  have := hmin j hj1 hj2
  simp only [Bool.and_eq_true, decide_eq_true_eq] at this
  rw [Bool.and_eq_false_iff] at this
  rcases this with h' | h'
  · exact absurd hcon.1 (of_decide_eq_false h')
  · exact absurd hcon.2 (by simp [h'])

theorem pyfind_isSome {got w : List Char} {s e q : Nat}
    (h1 : s ≤ q) (h2 : q + w.length ≤ min e got.length)
    (h3 : w.isPrefixOf (got.drop q) = true) :
    ∃ i, pyfind got w s e = some i := by
  unfold pyfind
  apply range'_find?_isSome h1
  · have : q ≤ min e got.length := Nat.le_trans (Nat.le_add_right q w.length) h2
    omega
  · simp only [Bool.and_eq_true, decide_eq_true_eq]
    exact ⟨h2, h3⟩

/-! ### In-order occurrence of literal pieces, and success of the find loop -/

theorem inOrder_prepend (c : List Char) {ws : List (List Char)} {s : List Char}
    (h : InOrder ws s) : InOrder ws (c ++ s) := by
  cases ws with
  | nil => trivial
  | cons w ws =>
    obtain ⟨a, b, heq, hrest⟩ := h
    exact ⟨c ++ a, b, by rw [heq]; simp [List.append_assoc], hrest⟩

theorem inOrder_append (c : List Char) {ws : List (List Char)} :
    ∀ {s : List Char}, InOrder ws s → InOrder ws (s ++ c) := by
  induction ws with
  | nil => intro s _; trivial
  | cons w ws ih =>
    intro s h
    obtain ⟨a, b, heq, hrest⟩ := h
    exact ⟨a, b ++ c, by rw [heq]; simp [List.append_assoc], ih hrest⟩

theorem inOrder_intercalate (sep : List Char) :
    ∀ ws : List (List Char), InOrder ws (List.intercalate sep ws) := by
  intro ws
  induction ws with
  | nil => trivial
  | cons w t ih =>
    cases t with
    | nil =>
      exact ⟨[], [], by simp [intercalate_single], trivial⟩
    | cons w2 t2 =>
      rw [intercalate_cons2]
      exact ⟨[], sep ++ List.intercalate sep (w2 :: t2),
        by simp [List.append_assoc], inOrder_prepend sep ih⟩

theorem findAll_of_inOrder (got : List Char) :
    ∀ (ws : List (List Char)) (s e : Nat), s ≤ e → e ≤ got.length →
      InOrder ws ((got.drop s).take (e - s)) → findAll got ws s e = true := by
  intro ws
  induction ws with
  | nil => intro s e _ _ _; rfl
  | cons w t ih =>
    intro s e hse hlen hio
    obtain ⟨a, b, heq, hrest⟩ := hio
    have hslicelen : ((got.drop s).take (e - s)).length = e - s := by
      rw [List.length_take, List.length_drop]
      omega
    have habw : a.length + w.length + b.length = e - s := by
      rw [heq] at hslicelen
      simp only [List.length_append] at hslicelen
      omega
    have hsplit : got.drop s = a ++ w ++ (b ++ got.drop e) := by
      conv_lhs => rw [← List.take_append_drop (e - s) (got.drop s)]
      rw [heq, List.drop_drop]
      have : s + (e - s) = e := by omega
      rw [this]
      simp [List.append_assoc]
    -- the literal occurrence of `w` at position `s + a.length`
    have hocc : w.isPrefixOf (got.drop (s + a.length)) = true := by
      rw [List.isPrefixOf_iff_prefix]
      have : got.drop (s + a.length) = w ++ (b ++ got.drop e) := by
        rw [← List.drop_drop, hsplit, List.append_assoc,
          List.drop_left a (w ++ (b ++ got.drop e))]
      rw [this]
      exact ⟨b ++ got.drop e, rfl⟩
    have hoccle : (s + a.length) + w.length ≤ min e got.length := by omega
    obtain ⟨i, hi⟩ := pyfind_isSome (Nat.le_add_right s a.length) hoccle hocc
    obtain ⟨his, hile, hipre, himin⟩ := pyfind_some hi
    have hiq : i ≤ s + a.length := by
      by_contra hgt
      exact himin (s + a.length) (Nat.le_add_right s a.length) (by omega) ⟨hoccle, hocc⟩
    rw [findAll, hi]
    -- the tail `b` is still inside the shrunken window
    apply ih (i + w.length) e (by omega) hlen
    have hsub : i + w.length - s ≤ a.length + w.length := by omega
    have hdrop : got.drop (i + w.length) =
        (a ++ w).drop (i + w.length - s) ++ (b ++ got.drop e) := by
      rw [show i + w.length = s + (i + w.length - s) by omega, ← List.drop_drop, hsplit]
      rw [show (a ++ w ++ (b ++ got.drop e)) = (a ++ w) ++ (b ++ got.drop e) by
        simp [List.append_assoc]]
      rw [List.drop_append_of_le_length (by simpa using hsub)]
      rw [show s + (i + w.length - s) - s = i + w.length - s by omega]
    rw [hdrop]
    have hlen2 : ((a ++ w).drop (i + w.length - s)).length =
        a.length + w.length - (i + w.length - s) := by
      rw [List.length_drop]
      simp
    have : e - (i + w.length) =
        ((a ++ w).drop (i + w.length - s)).length + b.length := by
      rw [hlen2]
      omega
    rw [this, ← List.append_assoc, List.take_left' (by simp)]
    exact inOrder_prepend _ hrest

/-! ### Reflexivity of the ellipsis match -/

theorem emRun_stage2 (got : List Char) (ws1 : List (List Char)) (sp : Nat)
    (pad : List Char) (hne : ws1 ≠ []) (hsp : sp ≤ got.length)
    (hdrop : got.drop sp = pad ++ List.intercalate eLL ws1) :
    (match afterEnd got got.length ws1 with
     | none => false
     | some (endpos, ws2) =>
       if sp > endpos then false else findAll got ws2 sp endpos) = true := by
  rcases List.eq_nil_or_concat ws1 with rfl | ⟨init, wl, hconcat⟩
  · exact absurd rfl hne
  rw [List.concat_eq_append] at hconcat
  subst hconcat
  have hlast : (init ++ [wl]).getLastD [] = wl := List.getLastD_concat _ _ _
  have hdroplast : (init ++ [wl]).dropLast = init := List.dropLast_concat
  have hlendrop : got.length - sp = pad.length + (List.intercalate eLL (init ++ [wl])).length := by
    have := congrArg List.length hdrop
    simp only [List.length_drop, List.length_append] at this
    omega
  rw [afterEnd, hlast]
  by_cases hwl : wl = []
  · subst hwl
    simp only [List.isEmpty_nil, if_true]
    have hnogt : ¬(sp > got.length) := by omega
    rw [if_neg hnogt]
    apply findAll_of_inOrder got _ sp got.length hsp (Nat.le_refl _)
    have : (got.drop sp).take (got.length - sp) = got.drop sp := by
      apply List.take_of_length_le
      rw [List.length_drop]
    rw [this, hdrop]
    exact inOrder_prepend pad (inOrder_intercalate eLL (init ++ [[]]))
  · have hwlempty : wl.isEmpty = false := by
      cases wl with
      | nil => exact absurd rfl hwl
      | cons x xs => rfl
    rw [hwlempty]
    simp only [Bool.false_eq_true, if_false]
    rcases List.eq_nil_or_concat init with rfl | ⟨init2, w2, hc2⟩
    · -- a single trailing piece: `got.drop sp = pad ++ wl`
      simp only [List.nil_append] at hdrop hlendrop
      rw [intercalate_single] at hdrop hlendrop
      have hsuf : wl.isSuffixOf got = true := by
        rw [List.isSuffixOf_iff_suffix]
        refine ⟨got.take sp ++ pad, ?_⟩
        conv_rhs => rw [← List.take_append_drop sp got]
        rw [hdrop]
        simp [List.append_assoc]
      rw [hsuf]
      simp only [if_true]
      have hnogt : ¬(sp > got.length - wl.length) := by omega
      rw [if_neg hnogt, hdroplast]
      rw [findAll]
    · rw [List.concat_eq_append] at hc2
      subst hc2
      have hic : List.intercalate eLL ((init2 ++ [w2]) ++ [wl]) =
          List.intercalate eLL (init2 ++ [w2]) ++ eLL ++ wl :=
        intercalate_append_single _ _ _ (by simp)
      rw [hic] at hdrop hlendrop
      have hsuf : wl.isSuffixOf got = true := by
        rw [List.isSuffixOf_iff_suffix]
        refine ⟨got.take sp ++ pad ++ List.intercalate eLL (init2 ++ [w2]) ++ eLL, ?_⟩
        conv_rhs => rw [← List.take_append_drop sp got]
        rw [hdrop]
        simp [List.append_assoc]
      rw [hsuf]
      simp only [if_true]
      simp only [List.length_append] at hlendrop
      have hnogt : ¬(sp > got.length - wl.length) := by omega
      rw [if_neg hnogt, hdroplast]
      apply findAll_of_inOrder got _ sp (got.length - wl.length) (by omega) (by omega)
      have hslice : (got.drop sp).take (got.length - wl.length - sp) =
          pad ++ (List.intercalate eLL (init2 ++ [w2]) ++ eLL) := by
        rw [hdrop]
        rw [show pad ++ (List.intercalate eLL (init2 ++ [w2]) ++ eLL ++ wl) =
          (pad ++ (List.intercalate eLL (init2 ++ [w2]) ++ eLL)) ++ wl by
            simp [List.append_assoc]]
        apply List.take_left'
        simp only [List.length_append]
        omega
      rw [hslice]
      exact inOrder_prepend pad
        (inOrder_append eLL (inOrder_intercalate eLL (init2 ++ [w2])))

theorem emRun_self (ws : List (List Char)) (got : List Char) (hlen : 2 ≤ ws.length)
    (hgot : got = List.intercalate eLL ws) : emRun got ws = true := by
  match ws, hlen with
  | w0 :: w1 :: t, _ =>
    rw [emRun, afterStart]
    simp only [List.headD_cons]
    by_cases hw0 : w0 = []
    · subst hw0
      simp only [List.isEmpty_nil, if_true]
      exact emRun_stage2 got ([] :: w1 :: t) 0 [] (by simp) (Nat.zero_le _)
        (by simpa using hgot)
    · have hw0empty : w0.isEmpty = false := by
        cases w0 with
        | nil => exact absurd rfl hw0
        | cons x xs => rfl
      rw [hw0empty]
      simp only [Bool.false_eq_true, if_false]
      have hgot2 : got = w0 ++ eLL ++ List.intercalate eLL (w1 :: t) := by
        rw [hgot, intercalate_cons2]
      have hpre : w0.isPrefixOf got = true := by
        rw [List.isPrefixOf_iff_prefix, hgot2]
        exact ⟨eLL ++ List.intercalate eLL (w1 :: t), by simp [List.append_assoc]⟩
      rw [hpre]
      simp only [if_true, List.tail_cons]
      apply emRun_stage2 got (w1 :: t) w0.length eLL (by simp)
      · rw [hgot2]
        simp only [List.length_append]
        omega
      · rw [hgot2, List.append_assoc, List.drop_left]

theorem ellipsis_match_refl (l : List Char) : ellipsis_match l l = true := by
  rw [ellipsis_match]
  cases hc : containsEllipsis l with
  | false => simp
  | true =>
    simp only [Bool.not_true, Bool.false_eq_true, if_false]
    exact emRun_self (splitEllipsis l) l (splitEllipsis_length_ge_two l hc)
      (splitEllipsis_join l).symm

theorem zipPad_refl (l : List (List Char)) : zipPad l l = true := by
  induction l with
  | nil => rfl
  | cons w ws ih => rw [zipPad, ellipsis_match_refl, ih]; rfl

theorem ne_of_zipPad_false {l1 l2 : List (List Char)} (h : zipPad l1 l2 = false) :
    l1 ≠ l2 := by
  intro heq
  subst heq
  rw [zipPad_refl l1] at h
  exact Bool.noConfusion h

theorem intercalate_ne_nil (sep x : List Char) (t : List (List Char)) (hx : x ≠ []) :
    List.intercalate sep (x :: t) ≠ [] := by
  cases t with
  | nil => rwa [intercalate_single]
  | cons y t2 =>
    rw [intercalate_cons2]
    intro hcon
    rcases List.append_eq_nil.mp hcon with ⟨h1, _⟩
    exact hx (List.append_eq_nil.mp h1).1

/-! ### Lines consisting solely of wildcard markers -/

theorem splitEllipsis_pure (k : Nat) (hk : 1 ≤ k) :
    splitEllipsis ((List.replicate k eLL).flatten) = List.replicate (k + 1) [] := by
  induction k with
  | zero => omega
  | succ n ih =>
    cases n with
    | zero => decide
    | succ m =>
      have : (List.replicate (m + 1 + 1) eLL).flatten =
          '.' :: '.' :: '.' :: (List.replicate (m + 1) eLL).flatten := by
        rw [List.replicate_succ, List.flatten_cons]
        rfl
      rw [this, splitEllipsis_dots, ih (by omega)]
      rfl

theorem containsEllipsis_pure (k : Nat) (hk : 1 ≤ k) :
    containsEllipsis ((List.replicate k eLL).flatten) = true := by
  cases k with
  | zero => omega
  | succ n =>
    have : (List.replicate (n + 1) eLL).flatten =
        '.' :: '.' :: '.' :: (List.replicate n eLL).flatten := by
      rw [List.replicate_succ, List.flatten_cons]
      rfl
    rw [this]
    cases hrest : (List.replicate n eLL).flatten with
    | nil => decide
    | cons x xs =>
      rw [containsEllipsis]
      simp

theorem pyfind_nil_piece (got : List Char) (s e : Nat) (h : s ≤ min e got.length) :
    pyfind got [] s e = some s := by
  unfold pyfind
  rw [show min e got.length + 1 - s = (min e got.length - s) + 1 by omega,
    List.range'_succ, List.find?_cons]
  have hp : (decide (s + List.length ([] : List Char) ≤ min e got.length) &&
      List.isPrefixOf [] (got.drop s)) = true := by
    simp only [List.length_nil, Nat.add_zero, List.isPrefixOf]
    simp [h]
  rw [hp]

theorem findAll_replicate_nil (got : List Char) :
    ∀ (n : Nat) (s e : Nat), s ≤ min e got.length →
      findAll got (List.replicate n []) s e = true := by
  intro n
  induction n with
  | zero => intro s e _; rfl
  | succ m ih =>
    intro s e h
    rw [List.replicate_succ, findAll, pyfind_nil_piece got s e h]
    simpa using ih s e h

theorem getLastD_replicate_nil (n : Nat) :
    (List.replicate (n + 1) ([] : List Char)).getLastD [] = [] := by
  induction n with
  | zero => rfl
  | succ m ih =>
    rw [List.replicate_succ]
    cases hrep : List.replicate (m + 1) ([] : List Char) with
    | nil => simp at hrep
    | cons x xs =>
      rw [hrep] at ih
      simpa using ih

theorem ellipsis_match_pure (w got : List Char) (h : pureEllipsisLine w) :
    ellipsis_match w got = true := by
  obtain ⟨k, hk, rfl⟩ := h
  rw [ellipsis_match, containsEllipsis_pure k hk]
  simp only [Bool.not_true, Bool.false_eq_true, if_false]
  rw [splitEllipsis_pure k hk, emRun, afterStart]
  have hhead : (List.replicate (k + 1) ([] : List Char)).headD [] = [] := by
    rw [List.replicate_succ]
    rfl
  rw [hhead]
  simp only [List.isEmpty_nil, if_true]
  rw [afterEnd, getLastD_replicate_nil k]
  simp only [List.isEmpty_nil, if_true]
  have : ¬(0 > got.length) := by omega
  rw [if_neg this]
  exact findAll_replicate_nil got (k + 1) 0 got.length (by omega)

theorem zipPad_nil_right (l1 : List (List Char))
    (h : ∀ w ∈ l1, pureEllipsisLine w) : zipPad l1 [] = true := by
  induction l1 with
  | nil => rfl
  | cons w ws ih =>
    rw [zipPad, ellipsis_match_pure w [] (h w (by simp))]
    rw [ih (fun w hw => h w (by simp [hw]))]
    rfl

theorem zipPad_of_pairs_and_surplus :
    ∀ (l1 l2 : List (List Char)), l2.length ≤ l1.length →
      (∀ p ∈ l1.zip l2, ellipsis_match p.1 p.2 = true) →
      (∀ w ∈ l1.drop l2.length, pureEllipsisLine w) →
      zipPad l1 l2 = true := by
  intro l1 l2
  induction l2 generalizing l1 with
  | nil =>
    intro _ _ hsurplus
    exact zipPad_nil_right l1 (by simpa using hsurplus)
  | cons g gs ih =>
    intro hlen hpairs hsurplus
    cases l1 with
    | nil => simp at hlen
    | cons w ws =>
      rw [zipPad, hpairs (w, g) (by simp [List.zip_cons_cons])]
      rw [ih ws (by simpa using hlen) (fun p hp => hpairs p (by simp [List.zip_cons_cons, hp]))
        (fun x hx => hsurplus x (by simpa using hx))]
      rfl

/-! ### The normalizer: equivalence with a word-joining specification -/

theorem collapseAux_cons_ws_false (c : Char) (cs : List Char) (h : isWS c = true) :
    collapseAux false (c :: cs) = ' ' :: collapseAux true cs := by
  rw [collapseAux, h]
  simp

theorem collapseAux_cons_ws_true (c : Char) (cs : List Char) (h : isWS c = true) :
    collapseAux true (c :: cs) = collapseAux true cs := by
  rw [collapseAux, h]
  simp

theorem collapseAux_cons_not_ws (pw : Bool) (c : Char) (cs : List Char)
    (h : isWS c = false) : collapseAux pw (c :: cs) = c :: collapseAux false cs := by
  rw [collapseAux, h]
  simp

theorem canonF_false_cons_ws (c : Char) (cs : List Char) (h : isWS c = true) :
    canonF false (c :: cs) = canonF false cs := by
  rw [canonF, h]
  simp

theorem canonF_false_cons_not_ws (c : Char) (cs : List Char) (h : isWS c = false) :
    canonF false (c :: cs) = c :: canonF true cs := by
  rw [canonF, h]
  simp

theorem canonF_true_cons_ws (c : Char) (cs : List Char) (h : isWS c = true) :
    canonF true (c :: cs) =
      if canonF false cs = [] then [] else ' ' :: canonF false cs := by
  rw [canonF, h]
  simp

theorem canonF_true_cons_not_ws (c : Char) (cs : List Char) (h : isWS c = false) :
    canonF true (c :: cs) = c :: canonF true cs := by
  rw [canonF, h]
  simp

theorem wordsAux_cons_ws (acc : List Char) (c : Char) (cs : List Char)
    (h : isWS c = true) :
    wordsAux acc (c :: cs) =
      if acc.isEmpty then wordsAux [] cs else acc.reverse :: wordsAux [] cs := by
  rw [wordsAux, h]
  simp

theorem wordsAux_cons_not_ws (acc : List Char) (c : Char) (cs : List Char)
    (h : isWS c = false) : wordsAux acc (c :: cs) = wordsAux (c :: acc) cs := by
  rw [wordsAux, h]
  simp

theorem trimL_cons_ws (c : Char) (l : List Char) (h : isWS c = true) :
    trimL (c :: l) = trimL l := by
  rw [trimL, List.dropWhile_cons, h]
  rfl

theorem trimL_cons_not_ws (c : Char) (l : List Char) (h : isWS c = false) :
    trimL (c :: l) = c :: l := by
  rw [trimL, List.dropWhile_cons, h]
  rfl

theorem reverse_isEmpty_elim {l : List Char} (h1 : l.reverse = [])
    (h2 : l.isEmpty = false) : False := by
  have : l = [] := by
    cases l with
    | nil => rfl
    | cons x xs => simp at h1
  rw [this] at h2
  exact Bool.noConfusion h2

theorem trimR_cons_not_ws (c : Char) (l : List Char) (h : isWS c = false) :
    trimR (c :: l) = c :: trimR l := by
  rw [trimR, trimR, List.reverse_cons, List.dropWhile_append]
  cases hd : (l.reverse.dropWhile isWS).isEmpty with
  | true =>
    simp only [if_true]
    rw [List.dropWhile_cons, h]
    simp only [Bool.false_eq_true, if_false, List.dropWhile_nil]
    rw [List.isEmpty_iff.mp hd]
    rfl
  | false =>
    simp only [Bool.false_eq_true, if_false]
    rw [List.reverse_append]
    rfl

theorem trimR_cons_ws_spine (c : Char) (l : List Char) (h : isWS c = true) :
    trimR (c :: l) = if trimR l = [] then [] else c :: trimR l := by
  rw [trimR, trimR, List.reverse_cons, List.dropWhile_append]
  cases hd : (l.reverse.dropWhile isWS).isEmpty with
  | true =>
    simp only [if_true]
    rw [List.dropWhile_cons, h]
    simp only [if_true, List.dropWhile_nil, List.reverse_nil]
    rw [if_pos]
    rw [List.isEmpty_iff.mp hd]
    rfl
  | false =>
    simp only [Bool.false_eq_true, if_false]
    rw [List.reverse_append]
    rw [if_neg]
    · rfl
    · intro hcon
      exact reverse_isEmpty_elim hcon hd

theorem trimL_collapse_flag (l : List Char) :
    trimL (collapseAux true l) = trimL (collapseAux false l) := by
  cases l with
  | nil => rfl
  | cons c cs =>
    cases h : isWS c with
    | true =>
      rw [collapseAux_cons_ws_true c cs h, collapseAux_cons_ws_false c cs h,
        trimL_cons_ws ' ' _ (by decide)]
    | false =>
      rw [collapseAux_cons_not_ws true c cs h, collapseAux_cons_not_ws false c cs h]

theorem trimR_collapse_eq_canon (l : List Char) :
    trimR (collapseAux false l) = canonF true l ∧
      trimR (collapseAux true l) = canonF false l := by
  induction l with
  | nil => exact ⟨rfl, rfl⟩
  | cons c cs ih =>
    cases h : isWS c with
    | true =>
      constructor
      · rw [collapseAux_cons_ws_false c cs h, trimR_cons_ws_spine ' ' _ (by decide),
          canonF_true_cons_ws c cs h, ih.2]
      · rw [collapseAux_cons_ws_true c cs h, canonF_false_cons_ws c cs h]
        exact ih.2
    | false =>
      constructor
      · rw [collapseAux_cons_not_ws false c cs h, trimR_cons_not_ws c _ h, ih.1,
          canonF_true_cons_not_ws c cs h]
      · rw [collapseAux_cons_not_ws true c cs h, trimR_cons_not_ws c _ h, ih.1,
          canonF_false_cons_not_ws c cs h]

theorem pyStrip_collapse_eq_canon (l : List Char) :
    pyStrip (collapse l) = canonF false l := by
  induction l with
  | nil => rfl
  | cons c cs ih =>
    cases h : isWS c with
    | true =>
      rw [pyStrip, collapse, collapseAux_cons_ws_false c cs h,
        trimL_cons_ws ' ' _ (by decide), trimL_collapse_flag,
        canonF_false_cons_ws c cs h, ← ih]
      rfl
    | false =>
      rw [pyStrip, collapse, collapseAux_cons_not_ws false c cs h,
        trimL_cons_not_ws c _ h, trimR_cons_not_ws c _ h,
        canonF_false_cons_not_ws c cs h, (trimR_collapse_eq_canon cs).1]

theorem wordsAux_ne_nil_mem (l : List Char) :
    ∀ acc, [] ∉ wordsAux acc l := by
  induction l with
  | nil =>
    intro acc
    rw [wordsAux]
    cases h : acc.isEmpty with
    | true => simp
    | false =>
      simp only [Bool.false_eq_true, if_false]
      intro hcon
      exact reverse_isEmpty_elim (List.mem_singleton.mp hcon).symm h
  | cons c cs ih =>
    intro acc
    cases h : isWS c with
    | true =>
      rw [wordsAux_cons_ws acc c cs h]
      cases hacc : acc.isEmpty with
      | true => simpa using ih []
      | false =>
        simp only [Bool.false_eq_true, if_false]
        intro hcon
        rcases List.mem_cons.mp hcon with h2 | h2
        · exact reverse_isEmpty_elim h2.symm hacc
        · exact ih [] h2
    | false =>
      rw [wordsAux_cons_not_ws acc c cs h]
      exact ih (c :: acc)

theorem intercalate_words_eq_canon (l : List Char) :
    List.intercalate [' '] (wordsAux [] l) = canonF false l ∧
      ∀ acc, acc ≠ [] →
        List.intercalate [' '] (wordsAux acc l) = acc.reverse ++ canonF true l := by
  induction l with
  | nil =>
    constructor
    · rfl
    · intro acc hacc
      rw [wordsAux]
      rw [if_neg (by simpa [List.isEmpty_iff] using hacc)]
      rw [intercalate_single, canonF, List.append_nil]
  | cons c cs ih =>
    cases h : isWS c with
    | true =>
      constructor
      · rw [wordsAux_cons_ws [] c cs h]
        simp only [List.isEmpty_nil, if_true]
        rw [ih.1, canonF_false_cons_ws c cs h]
      · intro acc hacc
        rw [wordsAux_cons_ws acc c cs h]
        rw [if_neg (by simpa [List.isEmpty_iff] using hacc)]
        rw [canonF_true_cons_ws c cs h]
        cases hW : wordsAux [] cs with
        | nil =>
          rw [intercalate_single]
          rw [if_pos]
          · rw [List.append_nil]
          · rw [← ih.1, hW, intercalate_nil2]
        | cons w t =>
          rw [intercalate_cons2, ← hW, ih.1]
          rw [if_neg]
          · simp [List.append_assoc]
          · rw [← ih.1, hW]
            apply intercalate_ne_nil
            intro hcon
            apply wordsAux_ne_nil_mem cs []
            rw [hW, ← hcon]
            exact List.mem_cons_self _ _
    | false =>
      constructor
      · rw [wordsAux_cons_not_ws [] c cs h]
        rw [ih.2 [c] (by simp), canonF_false_cons_not_ws c cs h]
        rfl
      · intro acc hacc
        rw [wordsAux_cons_not_ws acc c cs h]
        rw [ih.2 (c :: acc) (by simp), canonF_true_cons_not_ws c cs h,
          List.reverse_cons]
        simp [List.append_assoc]

theorem normalizeLine_eq_spec (l : List Char) :
    normalizeLine l = specNormalizeLine l := by
  rw [normalizeLine, specNormalizeLine, wordsOf,
    (intercalate_words_eq_canon l).1, pyStrip_collapse_eq_canon]

theorem normalizeContent_not_mem_nil (content : List Char) :
    [] ∉ normalizeContent content := by
  rw [normalizeContent]
  intro hcon
  rw [List.mem_filterMap] at hcon
  obtain ⟨l, _, hsome⟩ := hcon
  by_cases hs : pyStrip (collapse l) = []
  · simp [hs] at hsome
  · simp only [hs, if_neg, ite_false] at hsome
    have := Option.some.inj hsome
    rcases List.map_eq_nil_iff.mp this with h2
    exact hs h2

/-! ### `.test` replacement: replace-all vs suffix substitution -/

theorem splitDT_ne_nil (l : List Char) : splitDT l ≠ [] := by
  induction l using splitDT.induct with
  | case1 => simp [splitDT]
  | case2 a b c d e rest h ih =>
    rw [splitDT, h]
    simp
  | case3 a b c d e rest h ih =>
    rw [splitDT]
    rw [Bool.not_eq_true] at h
    rw [h]
    simp only [Bool.false_eq_true, if_false]
    cases hsp : splitDT (b :: c :: d :: e :: rest) <;> simp [consHd]
  | case4 a as hshort ih =>
    have : splitDT (a :: as) = consHd a (splitDT as) := by
      rcases as with _ | ⟨b, _ | ⟨c, _ | ⟨d, _ | ⟨e, rest⟩⟩⟩⟩
      · rfl
      · rfl
      · rfl
      · rfl
      · exact (hshort b c d e rest rfl).elim
    rw [this]
    cases hsp : splitDT as <;> simp [consHd]

theorem splitDT_dt_start (rest : List Char) :
    splitDT (dtL ++ rest) = [] :: splitDT rest := by
  show splitDT ('.' :: 't' :: 'e' :: 's' :: 't' :: rest) = [] :: splitDT rest
  rw [splitDT]
  simp

theorem splitDT_cons_no_match (c : Char) (cs : List Char)
    (h : dtL.isPrefixOf (c :: cs) = false) :
    splitDT (c :: cs) = consHd c (splitDT cs) := by
  match cs with
  | [] => rfl
  | [b] => rfl
  | [b, c3] => rfl
  | [b, c3, d] => rfl
  | b :: c3 :: d :: e :: rest =>
    rw [splitDT]
    have hcond : (decide (c = '.') && decide (b = 't') && decide (c3 = 'e') &&
        decide (d = 's') && decide (e = 't')) = false := by
      by_contra hne
      rw [Bool.not_eq_false] at hne
      simp only [Bool.and_eq_true, decide_eq_true_eq] at hne
      obtain ⟨⟨⟨⟨h1, h2⟩, h3⟩, h4⟩, h5⟩ := hne
      subst h1; subst h2; subst h3; subst h4; subst h5
      simp [dtL, List.isPrefixOf] at h
    rw [hcond]
    simp

theorem splitDT_singleton_inv {l : List Char} (h : splitDT l = [l]) (hne : l ≠ []) :
    dtL.isPrefixOf l = false := by
  by_contra hcon
  rw [Bool.not_eq_false, List.isPrefixOf_iff_prefix] at hcon
  obtain ⟨rest, hrest⟩ := hcon
  rw [← hrest, splitDT_dt_start] at h
  injection h with h1 h2
  apply hne
  rw [← hrest, ← h1]

theorem splitDT_append_dt (pre : List Char) (h : splitDT pre = [pre]) :
    splitDT (pre ++ dtL) = [pre, []] := by
  induction pre with
  | nil =>
    rw [List.nil_append]
    rw [show splitDT dtL = splitDT (dtL ++ []) by rw [List.append_nil]]
    rw [splitDT_dt_start]
    rfl
  | cons c pre2 ih =>
    have hnp : dtL.isPrefixOf (c :: pre2) = false :=
      splitDT_singleton_inv h (by simp)
    have hpre2 : splitDT pre2 = [pre2] := by
      rw [splitDT_cons_no_match c pre2 hnp] at h
      cases hsp : splitDT pre2 with
      | nil => exact absurd hsp (splitDT_ne_nil pre2)
      | cons s ss =>
        rw [hsp] at h
        simp only [consHd, List.cons.injEq] at h
        obtain ⟨⟨_, hs⟩, hss⟩ := h
        rw [hs, hss]
    have hnocross : dtL.isPrefixOf (c :: (pre2 ++ dtL)) = false := by
      rcases pre2 with _ | ⟨c2, _ | ⟨c3, _ | ⟨c4, _ | ⟨c5, rest5⟩⟩⟩⟩
      · rw [← Bool.not_eq_true]
        intro hcon
        simp only [List.nil_append, dtL, List.isPrefixOf, Bool.and_eq_true,
          beq_iff_eq] at hcon
        exact absurd hcon.2.1 (by decide)
      · rw [← Bool.not_eq_true]
        intro hcon
        simp only [List.cons_append, List.nil_append, dtL, List.isPrefixOf,
          Bool.and_eq_true, beq_iff_eq] at hcon
        exact absurd hcon.2.2.1 (by decide)
      · rw [← Bool.not_eq_true]
        intro hcon
        simp only [List.cons_append, List.nil_append, dtL, List.isPrefixOf,
          Bool.and_eq_true, beq_iff_eq] at hcon
        exact absurd hcon.2.2.2.1 (by decide)
      · rw [← Bool.not_eq_true]
        intro hcon
        simp only [List.cons_append, List.nil_append, dtL, List.isPrefixOf,
          Bool.and_eq_true, beq_iff_eq] at hcon
        exact absurd hcon.2.2.2.2.1 (by decide)
      · rw [← Bool.not_eq_true] at hnp ⊢
        intro hcon
        apply hnp
        simp only [List.cons_append, dtL, List.isPrefixOf, Bool.and_eq_true,
          beq_iff_eq] at hcon ⊢
        exact ⟨hcon.1, hcon.2.1, hcon.2.2.1, hcon.2.2.2.1, hcon.2.2.2.2.1, by simp⟩
    rw [List.cons_append, splitDT_cons_no_match c _ hnocross, ih hpre2]
    rfl

/-! ### Failure modes of the marker path (anchored ends, window check) -/

theorem isEmpty_false_of_ne_nil {l : List Char} (h : l ≠ []) : l.isEmpty = false := by
  cases l with
  | nil => exact absurd rfl h
  | cons x xs => rfl

theorem emRun_start_fail (got : List Char) (ws : List (List Char))
    (hne : ws.headD [] ≠ []) (hpre : (ws.headD []).isPrefixOf got = false) :
    emRun got ws = false := by
  rw [emRun, afterStart, isEmpty_false_of_ne_nil hne]
  simp only [Bool.false_eq_true, if_false]
  rw [hpre]
  simp

theorem getLastD_tail_of_two {ws : List (List Char)} (h : 2 ≤ ws.length) :
    ws.tail.getLastD [] = ws.getLastD [] := by
  match ws, h with
  | a :: b :: t, _ =>
    rw [List.tail_cons]
    rw [List.getLastD_eq_getLast?, List.getLastD_eq_getLast?, List.getLast?_cons_cons]

theorem emRun_end_fail (got : List Char) (ws : List (List Char)) (hlen : 2 ≤ ws.length)
    (hstart : ws.headD [] = [] ∨ (ws.headD []).isPrefixOf got = true)
    (hwl : ws.getLastD [] ≠ []) (hsuf : (ws.getLastD []).isSuffixOf got = false) :
    emRun got ws = false := by
  rw [emRun, afterStart]
  by_cases h0 : ws.headD [] = []
  · rw [h0]
    simp only [List.isEmpty_nil, if_true]
    rw [afterEnd, isEmpty_false_of_ne_nil hwl]
    simp only [Bool.false_eq_true, if_false]
    rw [hsuf]
    simp
  · rcases hstart with h | hpre
    · exact absurd h h0
    · rw [isEmpty_false_of_ne_nil h0]
      simp only [Bool.false_eq_true, if_false]
      rw [hpre]
      simp only [if_true]
      rw [afterEnd, getLastD_tail_of_two hlen, isEmpty_false_of_ne_nil hwl]
      simp only [Bool.false_eq_true, if_false]
      rw [hsuf]
      simp

theorem emRun_window_fail (got : List Char) (ws : List (List Char)) (hlen : 2 ≤ ws.length)
    (h0 : ws.headD [] ≠ []) (hpre : (ws.headD []).isPrefixOf got = true)
    (hwl : ws.getLastD [] ≠ []) (hsuf : (ws.getLastD []).isSuffixOf got = true)
    (hlt : got.length - (ws.getLastD []).length < (ws.headD []).length) :
    emRun got ws = false := by
  rw [emRun, afterStart, isEmpty_false_of_ne_nil h0]
  simp only [Bool.false_eq_true, if_false]
  rw [hpre]
  simp only [if_true]
  rw [afterEnd, getLastD_tail_of_two hlen, isEmpty_false_of_ne_nil hwl]
  simp only [Bool.false_eq_true, if_false]
  rw [hsuf]
  simp only [if_true]
  rw [if_pos hlt]

/-! ### Counting helpers for the scheduler summary -/

theorem count_true_add_count_false (l : List Bool) :
    l.count true + l.count false = l.length := by
  induction l with
  | nil => rfl
  | cons b t ih =>
    rw [List.count_cons, List.count_cons, List.length_cons]
    cases b with
    | true =>
      simp only [show (true == true) = true from rfl,
        show (true == false) = false from rfl, if_true, Bool.false_eq_true, if_false]
      omega
    | false =>
      simp only [show (false == true) = false from rfl,
        show (false == false) = true from rfl, if_true, Bool.false_eq_true, if_false]
      omega

theorem mapM_ok_forall {f : List Char → Except Err Bool} :
    ∀ {tests : List (List Char)} {l : List Bool}, tests.mapM f = Except.ok l →
      ∀ t ∈ tests, ∃ b, f t = Except.ok b := by
  intro tests
  induction tests with
  | nil =>
    intro l _ t ht
    simp at ht
  | cons a as ih =>
    intro l h t ht
    rw [List.mapM_cons] at h
    cases hfa : f a with
    | error e =>
      rw [hfa] at h
      simp only [Bind.bind, Except.bind] at h
      exact Except.noConfusion h
    | ok b =>
      rw [hfa] at h
      cases has : as.mapM f with
      | error e =>
        rw [has] at h
        simp only [Bind.bind, Except.bind, pure, Except.pure] at h
        exact Except.noConfusion h
      | ok bs =>
        rcases List.mem_cons.mp ht with rfl | hmem
        · exact ⟨b, hfa⟩
        · exact ih has t hmem

example : ellipsis_match ['a', '.', '.', '.', 'b'] ['a', 'x', 'x', 'x', 'b'] = true := by decide
example : ellipsis_match ['a', '.', '.', '.', 'b'] ['z', 'a', 'x', 'x', 'x', 'b'] = false := by decide
example :
    ellipsis_match ['.', '.', '.', 'b', '.', '.', '.', 'a', '.', '.', '.']
      ['z', 'b', 'q', 'q', 'a', '7'] = true := by decide
example :
    ellipsis_match ['a', '.', '.', '.', 'a', '.', '.', '.', 'a'] ['a', 'a'] = false := by decide
example : ellipsis_match ['.', '.', '.'] [] = true := by decide
example : ellipsis_match ['a', '.', '.', '.', 'a'] ['a', 'a', 'a'] = true := by decide
example :
    normalizeContent ['a', '\t', '\t', 'b', '\n', '\n', ' ', ' ', '\n', 'c']
      = [['a', ' ', 'b'], ['c']] := by decide

theorem run_test_m_ok_eq (fs : FileSys) (test outfile : List Char) (rc : Int)
    (content : Except Unit (List Char)) :
    run_test_m fs test outfile (Except.ok ⟨rc, content⟩) =
      match generate_unified_diff_m (writeFS fs outfile content)
          (selectExp fs test) outfile with
      | .error e => .error e
      | .ok d => .ok (decide (d = [])) := rfl

/-! ## Claim theorems -/

/-- C1 (counterexample): `run_test` derives paths with Python `str.replace`,
which replaces every occurrence of `".test"`, not only the trailing suffix:
for the (legal, `.test`-suffixed) test name `b.test.test` the code derives
the expected file `b.exp.exp` and TESTNAME `b`, while the claim's suffix-only
substitution would give `b.test.exp` and `b.test`. -/
theorem c1_counterexample :
    expfileOf ("b.test.test".toList) = "b.exp.exp".toList ∧
    "b.exp.exp".toList ≠ "b.test.exp".toList ∧
    testnameOf ("b.test.test".toList) = "b".toList ∧
    "b".toList ≠ "b.test".toList :=
  ⟨by decide, by decide, by decide, by decide⟩

/-- C1 (amended): the expected-output path and the TESTNAME value are derived
by replacing every leftmost non-overlapping occurrence of `".test"` (Python
`str.replace` semantics); when `".test"` occurs only as the trailing suffix —
the stem `pre` contains no occurrence, i.e. `splitDT pre = [pre]` — this
coincides with the suffix-only substitution the claim describes: the expected
path is `pre ++ ".exp"` and TESTNAME is `pre`. -/
theorem c1_suffix_substitution (pre : List Char) (h : splitDT pre = [pre]) :
    expfileOf (pre ++ dtL) = pre ++ expL ∧ testnameOf (pre ++ dtL) = pre := by
  have hs := splitDT_append_dt pre h
  constructor
  · rw [expfileOf, hs, intercalate_cons2, intercalate_single, List.append_nil]
  · rw [testnameOf, hs, intercalate_cons2, intercalate_single]
    simp

/-- C1 (witness): the amended derivation at the stem `foo`. -/
theorem c1_witness :
    expfileOf ("foo".toList ++ dtL) = "foo".toList ++ expL ∧
    testnameOf ("foo".toList ++ dtL) = "foo".toList :=
  ⟨(c1_suffix_substitution ("foo".toList) (by decide)).1,
   (c1_suffix_substitution ("foo".toList) (by decide)).2⟩

/-- C2 (counterexample): with an expected file whose bytes do not decode,
`run_test` raises `UnicodeDecodeError` instead of returning a failed result
(`.ok false`), and the run over the bad test plus a healthy one aborts with
that error instead of producing a summary that counts the healthy test. -/
theorem c2_counterexample :
    runOneC2 ("t.test".toList) = Except.error Err.decodeError ∧
    runOneC2 ("t.test".toList) ≠ Except.ok false ∧
    runOneC2 ("g.test".toList) = Except.ok true ∧
    main_m ["t.test".toList, "g.test".toList] runOneC2 =
      Except.error Err.decodeError := by
  refine ⟨rfl, fun hcon => ?_, rfl, rfl⟩
  rw [show runOneC2 ("t.test".toList) = Except.error Err.decodeError from rfl] at hcon
  exact Except.noConfusion hcon

/-- C2 (amended): a per-test launch/write failure or decode failure raises:
the per-test function returns an error rather than a failed `TestResult`, and
a run whose per-test function errors on some submitted test produces no
summary at all (joblib re-raises the exception, aborting `main` before the
counts are computed), rather than isolating the failure. -/
theorem c2_error_propagation :
    (∀ (fs : FileSys) (test outfile : List Char),
      run_test_m fs test outfile (Except.error ()) = Except.error Err.execFailure)
    ∧ (∀ (fs : FileSys) (test outfile : List Char) (rc : Int)
        (content : Except Unit (List Char)),
        outfile ≠ selectExp fs test →
        fs (selectExp fs test) = some (Except.error ()) →
        run_test_m fs test outfile (Except.ok ⟨rc, content⟩) =
          Except.error Err.decodeError)
    ∧ (∀ (tests : List (List Char)) (f : List Char → Except Err Bool)
        (t : List Char), t ∈ tests → (∀ b, f t ≠ Except.ok b) →
        ∀ s, main_m tests f ≠ Except.ok s) := by
  refine ⟨fun fs test outfile => rfl, ?_, ?_⟩
  · intro fs test outfile rc content hne hbad
    rw [run_test_m_ok_eq]
    have hw : writeFS fs outfile content (selectExp fs test) =
        some (Except.error ()) := by
      rw [writeFS]
      rw [if_neg (fun hcon => hne hcon.symm), hbad]
    have hread : readFS (writeFS fs outfile content) (selectExp fs test) =
        Except.error Err.decodeError := by
      rw [readFS, hw]
    rw [generate_unified_diff_m, hread]
  · intro tests f t ht hbad s hcon
    rw [main_m] at hcon
    cases hm : tests.mapM f with
    | error e =>
      rw [hm] at hcon
      simp only [Bind.bind, Except.bind] at hcon
      exact Except.noConfusion hcon
    | ok l =>
      obtain ⟨b, hb⟩ := mapM_ok_forall hm t ht
      exact hbad b hb

/-- C2 (witness): the amended behaviour at the concrete file system `fsC2`. -/
theorem c2_witness :
    run_test_m fsC2 ("t.test".toList) ("o.out".toList) (Except.error ()) =
      Except.error Err.execFailure ∧
    run_test_m fsC2 ("t.test".toList) ("o.out".toList)
      (Except.ok ⟨0, Except.ok "x".toList⟩) = Except.error Err.decodeError ∧
    (∀ s, main_m ["t.test".toList]
      (fun _ => Except.error Err.decodeError) ≠ Except.ok s) := by
  refine ⟨c2_error_propagation.1 fsC2 _ _,
    c2_error_propagation.2.1 fsC2 ("t.test".toList) ("o.out".toList) 0 _
      (by decide) rfl,
    fun s => c2_error_propagation.2.2 _ _ ("t.test".toList) (by simp)
      (fun b hcon => Except.noConfusion hcon) s⟩

/-- C3: `generate_unified_diff` reports equal — returns the empty rendered
diff — iff, after normalizing both files and pairing the line sequences by
position with empty-string padding on the shorter side, every pair satisfies
the ellipsis match with the expected line as `want`.  (Raw byte differences
and the trailing-extra-line behaviour are exercised by the witness.) -/
theorem c3_compare_equal_iff (fs : FileSys) (f1 f2 t1 t2 : List Char)
    (h1 : readFS fs f1 = Except.ok t1) (h2 : readFS fs f2 = Except.ok t2) :
    generate_unified_diff_m fs f1 f2 = Except.ok [] ↔
      zipPad (normalizeContent t1) (normalizeContent t2) = true := by
  simp only [generate_unified_diff_m, h1, h2]
  cases hz : zipPad (normalizeContent t1) (normalizeContent t2) with
  | true => simp
  | false =>
    simp only [Bool.false_eq_true, if_false]
    constructor
    · intro hcon
      injection hcon with hd
      exfalso
      have hne := ne_of_zipPad_false hz
      rw [unified_diff, if_neg hne] at hd
      exact intercalate_ne_nil _ _ _ (by simp) hd
    · intro hcon
      exact hcon.elim

/-- C3 (witness): files whose raw bytes differ but which compare equal, and a
pair where an extra trailing actual line breaks equality through the
empty-string comparison. -/
theorem c3_witness :
    generate_unified_diff_m fsC3 ("c3.exp".toList) ("c3.out".toList) =
      Except.ok [] ∧
    "A  B".toList ≠ "a b".toList ∧
    generate_unified_diff_m fsC3 ("c3b.exp".toList) ("c3b.out".toList) ≠
      Except.ok [] := by
  refine ⟨?_, by decide, ?_⟩
  · exact (c3_compare_equal_iff fsC3 ("c3.exp".toList) ("c3.out".toList)
      ("A  B".toList) ("a b".toList) rfl rfl).mpr (by decide)
  · intro hcon
    have := (c3_compare_equal_iff fsC3 ("c3b.exp".toList) ("c3b.out".toList)
      ("a".toList) ("a\nb".toList) rfl rfl).mp hcon
    exact absurd this (by decide)

/-- C4: in the wildcard path, a non-empty piece before the first marker must
match `got` exactly at position 0 and a non-empty piece after the last marker
must match exactly at the end, with no fallback, and the match fails when the
shrunken window puts the end bound before the start bound; plus the four
concrete examples of the claim. -/
theorem c4_wildcard_anchoring :
    (∀ want got : List Char, containsEllipsis want = true →
      (splitEllipsis want).headD [] ≠ [] →
      ((splitEllipsis want).headD []).isPrefixOf got = false →
      ellipsis_match want got = false)
    ∧ (∀ want got : List Char, containsEllipsis want = true →
      ((splitEllipsis want).headD [] = [] ∨
        ((splitEllipsis want).headD []).isPrefixOf got = true) →
      (splitEllipsis want).getLastD [] ≠ [] →
      ((splitEllipsis want).getLastD []).isSuffixOf got = false →
      ellipsis_match want got = false)
    ∧ (∀ want got : List Char, containsEllipsis want = true →
      (splitEllipsis want).headD [] ≠ [] →
      ((splitEllipsis want).headD []).isPrefixOf got = true →
      (splitEllipsis want).getLastD [] ≠ [] →
      ((splitEllipsis want).getLastD []).isSuffixOf got = true →
      got.length - ((splitEllipsis want).getLastD []).length <
        ((splitEllipsis want).headD []).length →
      ellipsis_match want got = false)
    ∧ ellipsis_match ("a...b".toList) ("axxxb".toList) = true
    ∧ ellipsis_match ("a...b".toList) ("zaxxxb".toList) = false
    ∧ ellipsis_match ("...b...a...".toList) ("zbqqa7".toList) = true
    ∧ ellipsis_match ("a...a...a".toList) ("aa".toList) = false := by
  refine ⟨?_, ?_, ?_, by decide, by decide, by decide, by decide⟩
  · intro want got hc h0 hpre
    rw [ellipsis_match, hc]
    simp only [Bool.not_true, Bool.false_eq_true, if_false]
    exact emRun_start_fail got _ h0 hpre
  · intro want got hc hstart hwl hsuf
    rw [ellipsis_match, hc]
    simp only [Bool.not_true, Bool.false_eq_true, if_false]
    exact emRun_end_fail got _ (splitEllipsis_length_ge_two want hc) hstart hwl hsuf
  · intro want got hc h0 hpre hwl hsuf hlt
    rw [ellipsis_match, hc]
    simp only [Bool.not_true, Bool.false_eq_true, if_false]
    exact emRun_window_fail got _ (splitEllipsis_length_ge_two want hc) h0 hpre
      hwl hsuf hlt

/-- C4 (witness): each anchoring failure mode at a concrete input. -/
theorem c4_witness :
    ellipsis_match ("q...z".toList) ("xqz".toList) = false ∧
    ellipsis_match ("q...z".toList) ("qzx".toList) = false ∧
    ellipsis_match ("ab...ba".toList) ("aba".toList) = false :=
  ⟨c4_wildcard_anchoring.1 _ _ (by decide) (by decide) (by decide),
   c4_wildcard_anchoring.2.1 _ _ (by decide) (Or.inr (by decide)) (by decide)
     (by decide),
   c4_wildcard_anchoring.2.2.1 _ _ (by decide) (by decide) (by decide)
     (by decide) (by decide) (by decide)⟩

/-- C5 (counterexample): with a parent environment in which `ASAN_OPTIONS` is
unset, the child environment built by `runcmd` contains `ASAN_OPTIONS` set to
the empty string — a variable the claim allows only as a pass-through of an
already-present parent variable, with no other variables introduced; the
claim-side environment leaves it unset. -/
theorem c5_counterexample :
    runTestEnv emptyParent "p" "t" "ASAN_OPTIONS" = some "" ∧
    specTestEnv emptyParent "p" "t" "ASAN_OPTIONS" = none ∧
    emptyParent "ASAN_OPTIONS" = none :=
  ⟨rfl, rfl, rfl⟩

/-- C5 (amended): the child environment equals the parent with `PROGRAM` and
`TESTNAME` added, `LC_ALL` forced to `C`, and the sanitizer variables
`ASAN_OPTIONS` and `UBSAN_OPTIONS` always set — to the parent's value when
present and to the empty string when absent, so they are introduced even when
missing from the parent; every other variable passes through unchanged. -/
theorem c5_env_exact (parent : Env) (program testname : String) (k : String) :
    runTestEnv parent program testname k =
      if k = "UBSAN_OPTIONS" then some ((parent "UBSAN_OPTIONS").getD "")
      else if k = "ASAN_OPTIONS" then some ((parent "ASAN_OPTIONS").getD "")
      else if k = "LC_ALL" then some "C"
      else if k = "TESTNAME" then some testname
      else if k = "PROGRAM" then some program
      else parent k := rfl

/-- C6: for a run of `N` submitted tests of which `K` fail, the summary is
`total=N, passed=N-K, failed=K` — one result per submitted test, and the
counts are invariant under any permutation (completion order) of the result
list — and the exit status is 1 iff `K>0`. -/
theorem c6_summary_counts :
    (∀ (tests : List (List Char)) (runOne : List Char → Bool),
      (tests.map runOne).length = tests.length ∧
      summarize (tests.map runOne) =
        (tests.length, tests.length - (tests.map runOne).count false,
          (tests.map runOne).count false) ∧
      exitcodeOf (tests.length - (tests.map runOne).count true) =
        if 0 < (tests.map runOne).count false then 1 else 0)
    ∧ (∀ l l2 : List Bool, l.Perm l2 → summarize l = summarize l2) := by
  constructor
  · intro tests runOne
    have hlen : (tests.map runOne).length = tests.length := List.length_map _ _
    have hcnt := count_true_add_count_false (tests.map runOne)
    rw [hlen] at hcnt
    refine ⟨hlen, ?_, ?_⟩
    · rw [summarize, hlen, Prod.mk.injEq, Prod.mk.injEq]
      exact ⟨rfl, by omega, by omega⟩
    · rw [exitcodeOf]
      rw [show tests.length - (tests.map runOne).count true =
        (tests.map runOne).count false by omega]
  · intro l l2 hperm
    rw [summarize, summarize, hperm.length_eq, hperm.count_eq true]

/-- C6 (witness): three submitted tests with one failure give `total=3,
passed=2, failed=1` and exit status 1; a permuted completion order gives the
same summary. -/
theorem c6_witness :
    (["a".toList, "b".toList, "c".toList].map
      (fun t => decide (t ≠ "b".toList))).length = 3 ∧
    summarize (["a".toList, "b".toList, "c".toList].map
      (fun t => decide (t ≠ "b".toList))) = (3, 2, 1) ∧
    summarize [false, true, true] = summarize [true, false, true] := by
  have h := c6_summary_counts.1 ["a".toList, "b".toList, "c".toList]
    (fun t => decide (t ≠ "b".toList))
  exact ⟨h.1, h.2.1.trans (by decide), c6_summary_counts.2 _ _ (by decide)⟩

/-- C7: the verdict of `run_test` depends only on the diff of the captured
output against the expected file: it is literally independent of the
subprocess exit status, and when the normalized captured output matches the
normalized expected content the test is recorded as passed, whatever the
exit status was; a non-zero exit never raises. -/
theorem c7_verdict_ignores_exit_status :
    (∀ (fs : FileSys) (test outfile : List Char) (rc1 rc2 : Int)
        (content : Except Unit (List Char)),
      run_test_m fs test outfile (Except.ok ⟨rc1, content⟩) =
        run_test_m fs test outfile (Except.ok ⟨rc2, content⟩))
    ∧ (∀ (fs : FileSys) (test outfile : List Char) (rc : Int)
        (content : Except Unit (List Char)) (t1 t2 : List Char),
      readFS (writeFS fs outfile content) (selectExp fs test) = Except.ok t1 →
      readFS (writeFS fs outfile content) outfile = Except.ok t2 →
      zipPad (normalizeContent t1) (normalizeContent t2) = true →
      run_test_m fs test outfile (Except.ok ⟨rc, content⟩) = Except.ok true) := by
  constructor
  · intro fs test outfile rc1 rc2 content
    rfl
  · intro fs test outfile rc content t1 t2 h1 h2 hz
    rw [run_test_m_ok_eq]
    simp only [generate_unified_diff_m, h1, h2]
    rw [hz]
    simp

/-- C7 (witness): a subprocess exiting 7 whose output `OK` matches the
expected `ok` under normalization is recorded as passed, and the verdict for
exit status 7 equals the verdict for exit status 0. -/
theorem c7_witness :
    run_test_m fsC7 ("w.test".toList) ("w.out".toList)
        (Except.ok ⟨7, Except.ok "OK".toList⟩) =
      run_test_m fsC7 ("w.test".toList) ("w.out".toList)
        (Except.ok ⟨0, Except.ok "OK".toList⟩) ∧
    run_test_m fsC7 ("w.test".toList) ("w.out".toList)
      (Except.ok ⟨7, Except.ok "OK".toList⟩) = Except.ok true :=
  ⟨c7_verdict_ignores_exit_status.1 fsC7 _ _ 7 0 _,
   c7_verdict_ignores_exit_status.2 fsC7 ("w.test".toList) ("w.out".toList) 7 _
     ("ok".toList) ("OK".toList) rfl rfl (by decide)⟩

/-- C8: when `want` contains no wildcard marker, `ellipsis_match` is exactly
string equality. -/
theorem c8_no_marker_exact_equality (want got : List Char)
    (h : containsEllipsis want = false) :
    ellipsis_match want got = true ↔ want = got := by
  rw [ellipsis_match, h]
  simp

/-- C8 (witness): the no-marker equivalence at equal and at different
strings. -/
theorem c8_witness :
    (ellipsis_match ("ab".toList) ("ab".toList) = true ↔
      ("ab".toList : List Char) = "ab".toList) ∧
    (ellipsis_match ("ab".toList) ("ax".toList) = true ↔
      ("ab".toList : List Char) = "ax".toList) :=
  ⟨c8_no_marker_exact_equality _ _ (by decide),
   c8_no_marker_exact_equality _ _ (by decide)⟩

/-- C9: the normalizer's concrete behaviour on the claim's example; each line
is normalized exactly as "join the maximal non-whitespace runs with single
spaces, lower-cased" (the claim's collapse-strip-lowercase description); and
no empty line is ever produced. -/
theorem c9_normalizer :
    normalizeContent ("a\t\tb\n\n  \nc".toList) = ["a b".toList, "c".toList] ∧
    (∀ l : List Char, normalizeLine l = specNormalizeLine l) ∧
    (∀ content : List Char, [] ∉ normalizeContent content) :=
  ⟨by decide, normalizeLine_eq_spec, normalizeContent_not_mem_nil⟩

/-- C10: a `want` line consisting solely of wildcard markers matches every
`got`, including the empty string; consequently, when the expected normalized
sequence is longer, `compare` still reports equal provided the common pairs
match and every surplus expected line is such a pure-wildcard line. -/
theorem c10_pure_wildcard_lines :
    (∀ (got : List Char) (k : Nat), 1 ≤ k →
      ellipsis_match ((List.replicate k eLL).flatten) got = true)
    ∧ (∀ (fs : FileSys) (f1 f2 t1 t2 : List Char),
        readFS fs f1 = Except.ok t1 → readFS fs f2 = Except.ok t2 →
        (normalizeContent t2).length ≤ (normalizeContent t1).length →
        (∀ p ∈ (normalizeContent t1).zip (normalizeContent t2),
          ellipsis_match p.1 p.2 = true) →
        (∀ w ∈ (normalizeContent t1).drop (normalizeContent t2).length,
          pureEllipsisLine w) →
        generate_unified_diff_m fs f1 f2 = Except.ok []) := by
  constructor
  · intro got k hk
    exact ellipsis_match_pure _ got ⟨k, hk, rfl⟩
  · intro fs f1 f2 t1 t2 h1 h2 hlen hpairs hsur
    have hz := zipPad_of_pairs_and_surplus _ _ hlen hpairs hsur
    simp only [generate_unified_diff_m, h1, h2]
    rw [hz]
    simp

/-- C10 (witness): `"......"` (two markers) matches `"hello"`; an expected
file with two surplus pure-wildcard lines still compares equal to the
one-line actual file. -/
theorem c10_witness :
    ellipsis_match ("......".toList) ("hello".toList) = true ∧
    generate_unified_diff_m fsC10 ("c10.exp".toList) ("c10.out".toList) =
      Except.ok [] := by
  constructor
  · exact c10_pure_wildcard_lines.1 ("hello".toList) 2 (by omega)
  · refine c10_pure_wildcard_lines.2 fsC10 _ _ ("x\n...\n...".toList)
      ("x".toList) rfl rfl (by decide) (by decide) ?_
    intro w hw
    have hw2 : w ∈ [("...".toList : List Char), "...".toList] := hw
    rcases List.mem_cons.mp hw2 with rfl | h3
    · exact ⟨1, Nat.le_refl 1, by decide⟩
    · rw [List.mem_singleton.mp h3]
      exact ⟨1, Nat.le_refl 1, by decide⟩

end Regtest
